import Mathlib

/-!
Shallow embedding of the `central-package-migration` utility scripts
(package-version-extractor.py, batch-project-updater.py,
migration-validator.py, build-log-analyzer.py) and proofs about them.

Text is modelled as `List Char`; Python behaviour that can raise
(comparing an `int` sort-key segment against a `str` one) is modelled with
`Option`.
-/

namespace CPM

/-- Three-way comparison on `Nat`, the behaviour of Python `<` on `int`. -/
def cmpNat (a b : Nat) : Ordering :=
  if a < b then .lt else if b < a then .gt else .eq

/-- Python string comparison (lexicographic by code point), as used when the
sort key of `resolve_version_conflicts` compares two `str` segments. -/
def cmpCharList : List Char → List Char → Ordering
  | [], [] => .eq
  | [], _ :: _ => .lt
  | _ :: _, [] => .gt
  | a :: x, b :: y =>
    match cmpNat a.toNat b.toNat with
    | .eq => cmpCharList x y
    | o => o

/-- One element of the sort key built in `resolve_version_conflicts`:
`int(x) if x.isdigit() else x` for each segment `x` of the version string. -/
inductive Seg where
  | num (n : Nat)
  | str (s : List Char)
deriving DecidableEq

/-- `re.split(r'[.-]', v)`: split on every `.` or `-`, keeping empty pieces. -/
def splitSep : List Char → List (List Char)
  | [] => [[]]
  | c :: cs =>
    if c = '.' ∨ c = '-' then [] :: splitSep cs
    else
      match splitSep cs with
      | [] => [[c]]
      | s :: rest => (c :: s) :: rest

/-- Decimal value of a digit string, the behaviour of Python `int(x)` on a
string for which `x.isdigit()` holds. -/
def parseNat (s : List Char) : Nat :=
  s.foldl (fun n c => 10 * n + (c.toNat - 48)) 0

/-- Python `x.isdigit()` for ASCII text: non-empty and all characters digits. -/
def isDigits (s : List Char) : Bool :=
  !s.isEmpty && s.all (·.isDigit)

def segOfStr (s : List Char) : Seg :=
  if isDigits s then .num (parseNat s) else .str s

/-- The sort key of `resolve_version_conflicts`:
`[int(x) if x.isdigit() else x for x in re.split(r'[.-]', v)]`. -/
def verKey (v : List Char) : List Seg :=
  (splitSep v).map segOfStr

/-- Python comparison of two key segments; comparing an `int` against a `str`
raises `TypeError`, modelled as `none`. -/
def cmpSeg : Seg → Seg → Option Ordering
  | .num a, .num b => some (cmpNat a b)
  | .str a, .str b => some (cmpCharList a b)
  | _, _ => none

/-- Python list comparison of two sort keys (lexicographic, error on
incomparable segments). -/
def cmpKey : List Seg → List Seg → Option Ordering
  | [], [] => some .eq
  | [], _ :: _ => some .lt
  | _ :: _, [] => some .gt
  | a :: x, b :: y =>
    match cmpSeg a b with
    | none => none
    | some .eq => cmpKey x y
    | some o => some o

/-- Key comparison of two version strings, as performed by
`version_list.sort(key=...)` in `resolve_version_conflicts`. -/
def cmpVer (a b : String) : Option Ordering :=
  cmpKey (verKey a.data) (verKey b.data)

/-- `a` sorts no later than `b` under the version sort key. -/
def verLe (a b : String) : Prop :=
  cmpVer a b = some .lt ∨ cmpVer a b = some .eq

/-- One step of a stable ascending insertion into an already-sorted list,
comparing with the Python sort key; `none` models the `TypeError` Python
raises when an `int` segment meets a `str` segment. -/
def insertVer (v : String) : List String → Option (List String)
  | [] => some [v]
  | w :: l =>
    match cmpVer v w with
    | none => none
    | some .gt => (insertVer v l).map (fun l2 => w :: l2)
    | some _ => some (v :: w :: l)

/-- Stable ascending sort of the version list, the behaviour of
`version_list.sort(key=lambda v: [int(x) if x.isdigit() else x
for x in re.split(r'[.-]', v)])`. -/
def sortVers : List String → Option (List String)
  | [] => some []
  | v :: vs => (sortVers vs).bind (insertVer v)

/-- Resolution of a single package entry in `resolve_version_conflicts`:
more than one version → highest by the sort key (`version_list[-1]` after
the sort); otherwise the sole observed version (`list(versions)[0]`). -/
def resolveOne (versions : List String) : Option String :=
  if versions.length > 1 then
    (sortVers versions).bind (fun l => l.getLast?)
  else versions.head?

/-- `resolve_version_conflicts`: walk the package → versions map and build
the conflicts map (names with more than one version) and the resolutions map
(one version per name). -/
def resolve_version_conflicts (packages : List (String × List String)) :
    Option (List (String × List String) × List (String × String)) :=
  match packages with
  | [] => some ([], [])
  | (name, versions) :: rest =>
    match resolveOne versions with
    | none => none
    | some v =>
      match resolve_version_conflicts rest with
      | none => none
      | some (conflicts, resolutions) =>
        if versions.length > 1 then
          some ((name, versions) :: conflicts, (name, v) :: resolutions)
        else
          some (conflicts, (name, v) :: resolutions)

/-- All pairs of versions in the list have comparable sort keys, i.e. no
comparison raises. -/
def PairwiseComparable (vs : List String) : Prop :=
  ∀ a ∈ vs, ∀ b ∈ vs, (cmpVer a b).isSome

/-- The `package_categories` table of `PackageVersionExtractor.__init__`, in
its insertion (= iteration) order. -/
def package_categories : List (String × List String) :=
  [("AWS SDK", ["AWSSDK.", "Amazon."]),
   ("Microsoft Extensions", ["Microsoft.Extensions."]),
   ("Microsoft Core", ["Microsoft.NETFramework", "Microsoft.Bcl", "System."]),
   ("Testing", ["FluentAssertions", "Castle.Core", "Moq", "NUnit", "xunit"]),
   ("Logging", ["Common.Logging", "log4net", "NLog", "Serilog"]),
   ("JSON", ["Newtonsoft.Json", "System.Text.Json"]),
   ("Utilities", ["ZstdSharp", "Fare", "AutoMapper"])]

/-- Does any pattern of a category entry prefix-match the package name
(case-sensitive `str.startswith`, on the character sequences)? -/
def catMatches (name : String) (entry : String × List String) : Bool :=
  entry.2.any (fun p => p.data.isPrefixOf name.data)

/-- The loop of `categorize_package` over (a suffix of) the category table. -/
def categorizeFrom : List (String × List String) → String → String
  | [], _ => "Other"
  | e :: rest, name => if catMatches name e then e.1 else categorizeFrom rest name

/-- `categorize_package`: first category whose prefix list matches, else the
catch-all category `Other`. -/
def categorize_package (name : String) : String :=
  categorizeFrom package_categories name

/-- A `<package …/>` element of a packages.config file: its `id` and
`version` attributes (`none` = attribute absent). -/
structure ConfigPackage where
  idAttr : Option String
  versionAttr : Option String
deriving DecidableEq

/-- A `<PackageReference …/>` element of a .csproj file: its `Include` and
`Version` attributes (`none` = attribute absent). -/
structure CsprojPackageRef where
  includeAttr : Option String
  versionAttr : Option String
deriving DecidableEq

/-- The extractor's accumulating state: `self.packages` (name → set of
versions, insertion-ordered) and `self.package_sources` (name → list of
source files). -/
structure ExtState where
  packages : List (String × List String)
  sources : List (String × List String)
deriving DecidableEq

/-- `self.packages[package_id].add(version)`: set-add the version under the
name, creating the entry if needed. -/
def addVersionTo (m : List (String × List String)) (name v : String) :
    List (String × List String) :=
  match m with
  | [] => [(name, [v])]
  | (n, vs) :: rest =>
    if n = name then (n, if v ∈ vs then vs else vs ++ [v]) :: rest
    else (n, vs) :: addVersionTo rest name v

/-- `self.package_sources[package_id].append(file)`. -/
def addSourceTo (m : List (String × List String)) (name file : String) :
    List (String × List String) :=
  match m with
  | [] => [(name, [file])]
  | (n, fs) :: rest =>
    if n = name then (n, fs ++ [file]) :: rest
    else (n, fs) :: addSourceTo rest name file

/-- The body of the `for package in root.findall('package')` loop of
`extract_from_packages_config`: record the pair only under
`if package_id and version:` (both attributes present and non-empty). -/
def configStep (file : String) (st : ExtState) (e : ConfigPackage) : ExtState :=
  match e.idAttr, e.versionAttr with
  | some n, some v =>
    if n ≠ "" ∧ v ≠ "" then
      ⟨addVersionTo st.packages n v, addSourceTo st.sources n file⟩
    else st
  | _, _ => st

/-- `extract_from_packages_config` over the parsed `<package>` elements of
one file. -/
def extract_from_packages_config (file : String) (elems : List ConfigPackage)
    (st : ExtState) : ExtState :=
  elems.foldl (configStep file) st

/-- The body of the `for package_ref in root.findall('.//PackageReference')`
loop of `extract_from_csproj`, guarded by `if package_id and version:`. -/
def csprojStep (file : String) (st : ExtState) (e : CsprojPackageRef) : ExtState :=
  match e.includeAttr, e.versionAttr with
  | some n, some v =>
    if n ≠ "" ∧ v ≠ "" then
      ⟨addVersionTo st.packages n v, addSourceTo st.sources n file⟩
    else st
  | _, _ => st

/-- `extract_from_csproj` over the parsed `PackageReference` elements of one
file. -/
def extract_from_csproj (file : String) (elems : List CsprojPackageRef)
    (st : ExtState) : ExtState :=
  elems.foldl (csprojStep file) st

/-- Python `\s` on ASCII text: space, tab, newline, carriage return,
vertical tab, form feed. -/
def pyIsSpace (c : Char) : Bool :=
  c = ' ' || c = '\t' || c = '\n' || c = '\r' || c = Char.ofNat 11 || c = Char.ofNat 12

/-- Python substring containment, `pat in s`. -/
def containsSub (pat : List Char) : List Char → Bool
  | [] => pat.isEmpty
  | c :: cs => pat.isPrefixOf (c :: cs) || containsSub pat cs

/-- Split at the first occurrence of `pat`: `some (pre, post)` with
`s = pre ++ pat ++ post` and `pre` shortest possible. -/
def splitFirst (pat : List Char) : List Char → Option (List Char × List Char)
  | [] => if pat.isPrefixOf ([] : List Char) then some ([], []) else none
  | c :: cs =>
    if pat.isPrefixOf (c :: cs) then some ([], (c :: cs).drop pat.length)
    else (splitFirst pat cs).map (fun pq => (c :: pq.1, pq.2))

/-- Match a literal at the head of the text, returning the rest. -/
def stripLit (lit s : List Char) : Option (List Char) :=
  if lit.isPrefixOf s then some (s.drop lit.length) else none

/-- Consume one expected character. -/
def expectChar (c : Char) : List Char → Option (List Char)
  | [] => none
  | x :: xs => if x = c then some xs else none

def litPackageRef : List Char := "<PackageReference".data

def litIncludeQ : List Char := "Include=\"".data

def litVersionQ : List Char := "Version=\"".data

/-- The double-quote character. -/
def dq : Char := '\"'

/-- Attempt, at the current position, the regex of `remove_package_versions`:
`(<PackageReference\s+Include="[^"]+")(\s+Version="[^"]+")(\s*/?)`.
On success returns the replacement `\1\3` (group 2, the Version attribute,
dropped) and the text after the match. Every quantifier here is forced, so
no backtracking can change the outcome: each `\s+`/`\s*` is a maximal
whitespace run (the following literal characters are not whitespace), each
`[^"]+` is the maximal run before the closing quote, and nothing follows
`/?`. -/
def rpvGroup1 (s1 s2 : List Char) : List Char :=
  litPackageRef ++ s1.takeWhile pyIsSpace ++ litIncludeQ
    ++ s2.takeWhile (· ≠ dq) ++ [dq]

def matchRPVAt (s : List Char) : Option (List Char × List Char) :=
  match stripLit litPackageRef s with
  | none => none
  | some s1 =>
    if s1.takeWhile pyIsSpace = [] then none else
    match stripLit litIncludeQ (s1.drop (s1.takeWhile pyIsSpace).length) with
    | none => none
    | some s2 =>
      if s2.takeWhile (· ≠ dq) = [] then none else
      match expectChar dq (s2.drop (s2.takeWhile (· ≠ dq)).length) with
      | none => none
      | some s3 =>
        if s3.takeWhile pyIsSpace = [] then none else
        match stripLit litVersionQ (s3.drop (s3.takeWhile pyIsSpace).length) with
        | none => none
        | some s4 =>
          if s4.takeWhile (· ≠ dq) = [] then none else
          match expectChar dq (s4.drop (s4.takeWhile (· ≠ dq)).length) with
          | none => none
          | some s5 =>
            match s5.drop (s5.takeWhile pyIsSpace).length with
            | c :: r =>
              if c = '/' then
                some (rpvGroup1 s1 s2 ++ s5.takeWhile pyIsSpace ++ ['/'], r)
              else
                some (rpvGroup1 s1 s2 ++ s5.takeWhile pyIsSpace,
                  s5.drop (s5.takeWhile pyIsSpace).length)
            | [] => some (rpvGroup1 s1 s2 ++ s5.takeWhile pyIsSpace, [])

/-- Scanner for `re.sub(pattern, r'\1\3', content)`: at each position, emit
the replacement and resume after the match, or copy one character. Fuel-
indexed; every match consumes at least `<PackageReference`, so
`s.length + 1` fuel always suffices (`subRPVAux_fuel_irrelevant`). -/
def subRPVAux : Nat → List Char → List Char
  | 0, s => s
  | fuel + 1, s =>
    match matchRPVAt s with
    | some (rep, rest) => rep ++ subRPVAux fuel rest
    | none =>
      match s with
      | [] => []
      | c :: cs => c :: subRPVAux fuel cs

/-- The pure text transformation of `remove_package_versions` on one file. -/
def remove_package_versions_text (s : List Char) : List Char :=
  subRPVAux (s.length + 1) s

/-- Does the version-strip pattern match anywhere in the text? -/
def hasRPV : List Char → Bool
  | [] => (matchRPVAt []).isSome
  | c :: cs => (matchRPVAt (c :: cs)).isSome || hasRPV cs

/-- One project file as seen by the updater: its content and the content of
its sibling `.backup` file (`none` = no backup exists). -/
structure FState where
  content : List Char
  backup : Option (List Char)
deriving DecidableEq

/-- `backup_file`: copy the original to `<file>.backup` only if no backup
exists yet; an existing backup is left untouched. -/
def backup_file (st : FState) : FState :=
  match st.backup with
  | some _ => st
  | none => ⟨st.content, some st.content⟩

/-- Per-file effect of the `remove-package-versions` operation (non-dry-run):
transform, and only when the text changed create the backup and write. -/
def remove_package_versions_step (st : FState) : FState :=
  if remove_package_versions_text st.content ≠ st.content then
    { backup_file st with content := remove_package_versions_text st.content }
  else st

def litSharedAI : List Char := "SharedAssemblyInfo".data

def litGAI : List Char := "GenerateAssemblyInfo".data

def litPropertyGroup : List Char := "<PropertyGroup>".data

def insGAI : List Char :=
  "\n    <GenerateAssemblyInfo>false</GenerateAssemblyInfo>".data

/-- `re.sub(r'(<PropertyGroup>)', r'\1' + ins, content, count=1)`: insert
`ins` right after the first occurrence of `<PropertyGroup>`; if there is no
occurrence the text is unchanged. -/
def subFirstPG (ins s : List Char) : List Char :=
  match splitFirst litPropertyGroup s with
  | none => s
  | some (pre, post) => pre ++ litPropertyGroup ++ ins ++ post

/-- Pure text result of `add_generate_assembly_info` on one file, skip
branches (`continue`) included. -/
def add_generate_assembly_info_text (s : List Char) : List Char :=
  if !containsSub litSharedAI s then s
  else if containsSub litGAI s then s
  else subFirstPG insGAI s

/-- Per-file effect of the `add-generate-assembly-info` operation. -/
def add_generate_assembly_info_step (st : FState) : FState :=
  if !containsSub litSharedAI st.content then st
  else if containsSub litGAI st.content then st
  else if subFirstPG insGAI st.content ≠ st.content then
    { backup_file st with content := subFirstPG insGAI st.content }
  else st

/-- The duplicate-check substring `'<' + property_name + '>'` of
`add_property`. -/
def propOpenTag (pname : String) : List Char :=
  '<' :: (pname.data ++ ['>'])

/-- The text `add_property` inserts after the first `<PropertyGroup>`:
`\n    <name>value</name>`. -/
def propInsertion (pname pvalue : String) : List Char :=
  "\n    ".data ++ ('<' :: (pname.data ++ ['>'])) ++ pvalue.data
    ++ ("</".data ++ pname.data ++ ['>'])

/-- Pure text result of `add_property` on one file. -/
def add_property_text (pname pvalue : String) (s : List Char) : List Char :=
  if containsSub (propOpenTag pname) s then s
  else subFirstPG (propInsertion pname pvalue) s

/-- Per-file effect of the `add-property` operation. -/
def add_property_step (pname pvalue : String) (st : FState) : FState :=
  if containsSub (propOpenTag pname) st.content then st
  else if subFirstPG (propInsertion pname pvalue) st.content ≠ st.content then
    { backup_file st with content := subFirstPG (propInsertion pname pvalue) st.content }
  else st

/-- Attempt, at the current position, the regex of
`remove_package_reference`:
`<PackageReference\s+Include="{name}"[^>]*/?>\s*\n?` where the package name
is `re.escape`d, i.e. literal. Returns the text after the match (the match
is replaced by the empty string). `[^>]*` is the maximal run before `>` and
absorbs any `/`, so `/?` matches empty; `\s*` (whitespace including
newlines) is maximal, so the final `\n?` matches empty. -/
def matchRemRefAt (name : String) (s : List Char) : Option (List Char) :=
  match stripLit litPackageRef s with
  | none => none
  | some s1 =>
    if s1.takeWhile pyIsSpace = [] then none else
    match stripLit litIncludeQ (s1.drop (s1.takeWhile pyIsSpace).length) with
    | none => none
    | some s2 =>
      match stripLit name.data s2 with
      | none => none
      | some s3 =>
        match expectChar dq s3 with
        | none => none
        | some s4 =>
          match expectChar '>' (s4.drop (s4.takeWhile (· ≠ '>')).length) with
          | none => none
          | some s5 =>
            some (s5.drop (s5.takeWhile pyIsSpace).length)

/-- Scanner for `re.sub(pattern, '', content)` of
`remove_package_reference`; fuel-indexed as `subRPVAux`. -/
def subRemRefAux (name : String) : Nat → List Char → List Char
  | 0, s => s
  | fuel + 1, s =>
    match matchRemRefAt name s with
    | some rest => subRemRefAux name fuel rest
    | none =>
      match s with
      | [] => []
      | c :: cs => c :: subRemRefAux name fuel cs

/-- The pure text transformation of `remove_package_reference`. -/
def remove_package_reference_text (name : String) (s : List Char) : List Char :=
  subRemRefAux name (s.length + 1) s

/-- Per-file effect of the `remove-package` operation. -/
def remove_package_reference_step (name : String) (st : FState) : FState :=
  if remove_package_reference_text name st.content ≠ st.content then
    { backup_file st with content := remove_package_reference_text name st.content }
  else st

/-- One of the four updater operations, with its parameters. -/
inductive UpdOp where
  | removeVersions
  | addGenAssemblyInfo
  | removeRef (name : String)
  | addProp (pname pvalue : String)
deriving DecidableEq

def applyOp : UpdOp → FState → FState
  | .removeVersions, st => remove_package_versions_step st
  | .addGenAssemblyInfo, st => add_generate_assembly_info_step st
  | .removeRef name, st => remove_package_reference_step name st
  | .addProp n v, st => add_property_step n v st

/-- A run of updater operations over one file. -/
def applyOps (ops : List UpdOp) (st : FState) : FState :=
  ops.foldl (fun s op => applyOp op s) st

/-- A validation category status, as stored in `validation_results`. -/
inductive VStatus where
  | pass
  | warn
  | fail
  | skip
  | unknown
deriving DecidableEq

/-- The `status_scores` mapping (`.get(status, 0)` — `UNKNOWN` also maps
to 0). -/
def status_scores : VStatus → ℚ
  | .pass => 100
  | .warn => 75
  | .fail => 0
  | .skip => 0
  | .unknown => 0

/-- The four per-category statuses of `validation_results`. -/
structure ValidationStatuses where
  directory_packages_props : VStatus
  project_files : VStatus
  package_consistency : VStatus
  build_validation : VStatus
deriving DecidableEq

/-- The `weights` table of `calculate_overall_score`, paired with each
category's status, in the dict's iteration order. -/
def weightedStatuses (v : ValidationStatuses) : List (VStatus × ℚ) :=
  [(v.directory_packages_props, 25), (v.project_files, 30),
   (v.package_consistency, 25), (v.build_validation, 20)]

/-- The banding if-chain of `calculate_overall_score`. -/
def overallBand (score : ℚ) : String :=
  if score ≥ 90 then "EXCELLENT"
  else if score ≥ 75 then "GOOD"
  else if score ≥ 50 then "NEEDS_WORK"
  else "POOR"

/-- `calculate_overall_score`: accumulate `score * weight` and the total
weight over the categories, divide, and band the result. -/
def calculate_overall_score (v : ValidationStatuses) : ℚ × String :=
  let total_score :=
    (weightedStatuses v).foldl (fun acc p => acc + status_scores p.1 * p.2) 0
  let total_weight := (weightedStatuses v).foldl (fun acc p => acc + p.2) 0
  let overall := if total_weight > 0 then total_score / total_weight else 0
  (overall, overallBand overall)

/-- The overall score as the spec words it: the weighted average with
weights 25 (props) / 30 (project files) / 25 (consistency) / 20 (build)
over the status→score mapping. -/
def specOverallScore (v : ValidationStatuses) : ℚ :=
  (25 * status_scores v.directory_packages_props
    + 30 * status_scores v.project_files
    + 25 * status_scores v.package_consistency
    + 20 * status_scores v.build_validation) / 100

/-- The single-quote character (the analyzer's patterns quote package names
with it). -/
def sq : Char := Char.ofNat 39

/-- A fragment of one of the analyzer's regular expressions:
a (case-insensitive) literal, `.*` (`star false`) or `.*?` (`star true`),
or the quoted capture `\'([^\']+)\'`. -/
inductive RComp where
  | lit (cs : List Char)
  | star (lz : Bool)
  | grp
deriving DecidableEq

/-- Case-insensitive literal match (`re.IGNORECASE`). -/
def stripLitCI : List Char → List Char → Option (List Char)
  | [], s => some s
  | _ :: _, [] => none
  | p :: ps, c :: cs => if p.toLower = c.toLower then stripLitCI ps cs else none

/-- Backtracking matcher for the analyzer's patterns. `.*`/`.*?` consume any
characters except newline, trying longest first (greedy) or shortest first
(lazy); the quoted capture's extent is forced (`[^\']+` is the maximal run
before the closing quote). Returns the captured groups and the rest of the
text. -/
def matchComps : List RComp → List Char → Option (List (List Char) × List Char)
  | [], s => some ([], s)
  | .lit cs :: rest, s =>
    match stripLitCI cs s with
    | none => none
    | some s1 => matchComps rest s1
  | .grp :: rest, s =>
    match s with
    | [] => none
    | c :: s1 =>
      if c = sq then
        let g := s1.takeWhile (· ≠ sq)
        if g = [] then none
        else
          match s1.drop g.length with
          | c2 :: s2 =>
            if c2 = sq then
              match matchComps rest s2 with
              | none => none
              | some (gs, r) => some (g :: gs, r)
            else none
          | [] => none
      else none
  | .star lz :: rest, s =>
    let limit := (s.takeWhile (· ≠ '\n')).length
    let ks := List.range (limit + 1)
    (if lz then ks else ks.reverse).findSome? (fun k => matchComps rest (s.drop k))

/-- Scanner for `re.findall`: leftmost matches, non-overlapping, resuming
after each match; fuel-indexed (`s.length + 1` suffices since every pattern
starts with a non-empty literal). -/
def findallAux (comps : List RComp) : Nat → List Char → List (List (List Char))
  | 0, _ => []
  | fuel + 1, s =>
    match matchComps comps s with
    | some (gs, rest) =>
      if rest.length < s.length then gs :: findallAux comps fuel rest
      else
        gs ::
          (match s with
           | [] => []
           | _ :: cs => findallAux comps fuel cs)
    | none =>
      match s with
      | [] => []
      | _ :: cs => findallAux comps fuel cs

/-- `re.findall(pattern, content, re.IGNORECASE | re.MULTILINE)` as a list
of group lists. -/
def pyFindall (comps : List RComp) (s : List Char) : List (List (List Char)) :=
  findallAux comps (s.length + 1) s

def numGroups (comps : List RComp) : Nat :=
  comps.countP (fun c => c = RComp.grp)

/-- One element of `re.findall`'s result: a tuple of groups when the pattern
has two or more groups, a plain string (the sole group) when it has exactly
one. -/
inductive PyMatch where
  | tup (gs : List (List Char))
  | strg (g : List Char)
deriving DecidableEq

/-- `re.findall` with Python's tuple-vs-string result convention. -/
def findallPy (comps : List RComp) (s : List Char) : List PyMatch :=
  (pyFindall comps s).map (fun gs =>
    if 2 ≤ numGroups comps then .tup gs else .strg (gs.headD []))

def pat_NU1103 : List RComp :=
  [.lit "NU1103".data, .star false, .lit "Unable to find package".data,
   .star true, .grp, .star true, .lit "version".data, .star true, .grp]

def pat_NU1605 : List RComp :=
  [.lit "NU1605".data, .star false, .lit "Detected package downgrade".data,
   .star true, .grp, .star true, .lit "from".data, .star true, .grp,
   .star true, .lit "to".data, .star true, .grp]

def pat_NU1202 : List RComp :=
  [.lit "NU1202".data, .star false, .lit "Package".data, .star true, .grp,
   .star true, .lit "version".data, .star true, .grp, .star true,
   .lit "is not compatible".data, .star true, .grp]

def pat_NU1010 : List RComp :=
  [.lit "NU1010".data, .star false, .lit "Package reference".data,
   .star true, .grp, .star true, .lit "does not contain a version".data]

def pat_NU1008 : List RComp :=
  [.lit "NU1008".data, .star false, .lit "Package".data, .star true, .grp,
   .star true, .lit "version".data, .star true, .grp, .star true,
   .lit "has a known".data, .star true, .lit "vulnerability".data]

def pat_NU1506 : List RComp :=
  [.lit "NU1506".data, .star false, .lit "There are".data, .star true,
   .lit "duplicate".data, .star true, .grp, .star true,
   .lit "package version".data]

def pat_MSB4062 : List RComp :=
  [.lit "MSB4062".data, .star false, .lit "The".data, .star true, .grp,
   .star true, .lit "task".data, .star true,
   .lit "could not be loaded".data, .star true, .lit "duplicate".data,
   .star true, .lit "attribute".data]

/-- The `error_patterns` table, in its insertion (= iteration) order. -/
def error_patterns : List (String × List RComp) :=
  [("NU1103", pat_NU1103), ("NU1605", pat_NU1605), ("NU1202", pat_NU1202),
   ("NU1010", pat_NU1010), ("NU1008", pat_NU1008), ("NU1506", pat_NU1506),
   ("MSB4062", pat_MSB4062)]

/-- The `error_priorities` table (1 = blocking, 2 = build issue,
3 = warning). -/
def error_priorities : List (String × Nat) :=
  [("NU1103", 1), ("NU1605", 1), ("NU1202", 1), ("NU1010", 1),
   ("MSB4062", 2), ("NU1506", 3), ("NU1008", 3)]

/-- The aggregate built by `analyze_log` for one log file: per-code matched
records, per-code counts, the affected-package set (insertion-ordered), and
the total error count. -/
structure LogResults where
  errors : List (String × List PyMatch)
  summary : List (String × Nat)
  packages_affected : List (List Char)
  total_errors : Nat
deriving DecidableEq

/-- The guard
`if match and isinstance(match, tuple) and len(match) > 0:
results['packages_affected'].add(match[0])` —
a plain-string match (single-group pattern) fails `isinstance(…, tuple)`
and adds nothing. -/
def addAffected (acc : List (List Char)) (m : PyMatch) : List (List Char) :=
  match m with
  | .tup (g :: _) => if g ∈ acc then acc else acc ++ [g]
  | .tup [] => acc
  | .strg _ => acc

/-- `analyze_log` on the content of one log file. -/
def analyze_log (content : List Char) : LogResults :=
  error_patterns.foldl
    (fun res p =>
      let ms := findallPy p.2 content
      if ms = [] then res
      else
        { errors := res.errors ++ [(p.1, ms)],
          summary := res.summary ++ [(p.1, ms.length)],
          packages_affected := ms.foldl addAffected res.packages_affected,
          total_errors := res.total_errors + ms.length })
    ⟨[], [], [], 0⟩

/-- Test fixture: a `PackageReference` element carrying two `Version`
attributes. -/
def exDoubleVersion : List Char :=
  "<PackageReference Include=\"A\" Version=\"1\" Version=\"2\" />".data

/-- Test fixture: a log line for the blocking code NU1010 with a quoted
package name. -/
def exLogNU1010 : List Char :=
  "NU1010 Package reference ".data ++ [sq] ++ "Foo.Bar".data ++ [sq]
    ++ " does not contain a version".data

/-- Test fixture: a log line for the blocking code NU1103 with a quoted
package name and version. -/
def exLogNU1103 : List Char :=
  "error NU1103: Unable to find package ".data ++ [sq] ++ "Baz.Qux".data
    ++ [sq] ++ " with version ".data ++ [sq] ++ "1.2.3".data ++ [sq]

theorem cmpNat_eq_iff {a b : Nat} : cmpNat a b = .eq ↔ a = b := by
  unfold cmpNat
  split <;> [skip; split] <;> simp <;> omega

theorem cmpNat_lt_iff {a b : Nat} : cmpNat a b = .lt ↔ a < b := by
  unfold cmpNat
  split <;> [skip; split] <;> simp <;> omega

theorem cmpNat_refl (a : Nat) : cmpNat a a = .eq := by
  simp [cmpNat]

theorem cmpNat_swap {a b : Nat} {o : Ordering} (h : cmpNat a b = o) :
    cmpNat b a = o.swap := by
  subst h
  unfold cmpNat
  rcases Nat.lt_trichotomy a b with h1 | h1 | h1
  · simp [h1, Nat.lt_asymm h1, Ordering.swap]
  · simp [h1, Nat.lt_irrefl, Ordering.swap]
  · simp [h1, Nat.lt_asymm h1, Ordering.swap]

theorem cmpCharList_refl (a : List Char) : cmpCharList a a = .eq := by
  induction a with
  | nil => rfl
  | cons c cs ih => simp [cmpCharList, cmpNat_refl, ih]

theorem cmpCharList_swap :
    ∀ {a b : List Char} {o : Ordering}, cmpCharList a b = o → cmpCharList b a = o.swap
  | [], [], _, h => by subst h; rfl
  | [], _ :: _, _, h => by subst h; rfl
  | _ :: _, [], _, h => by subst h; rfl
  | a :: x, b :: y, o, h => by
    rcases ho : cmpNat a.toNat b.toNat with _ | _ | _
    · have h' : Ordering.lt = o := by
        rw [← h]; simp only [cmpCharList, ho]
      subst h'
      have hsw : cmpNat b.toNat a.toNat = Ordering.gt := cmpNat_swap ho
      simp only [cmpCharList, hsw]
      rfl
    · have h' : cmpCharList x y = o := by
        rw [← h]; simp only [cmpCharList, ho]
      have hsw : cmpNat b.toNat a.toNat = Ordering.eq := cmpNat_swap ho
      simp only [cmpCharList, hsw]
      exact cmpCharList_swap h'
    · have h' : Ordering.gt = o := by
        rw [← h]; simp only [cmpCharList, ho]
      subst h'
      have hsw : cmpNat b.toNat a.toNat = Ordering.lt := cmpNat_swap ho
      simp only [cmpCharList, hsw]
      rfl

theorem cmpCharList_eq_congr :
    ∀ {a b : List Char}, cmpCharList a b = .eq →
      ∀ c, cmpCharList a c = cmpCharList b c
  | [], [], _, _ => rfl
  | [], _ :: _, h, _ => by simp [cmpCharList] at h
  | _ :: _, [], h, _ => by simp [cmpCharList] at h
  | a :: x, b :: y, h, c => by
    rcases ho : cmpNat a.toNat b.toNat with _ | _ | _
    · have h' : Ordering.lt = Ordering.eq := by
        rw [← h]; simp only [cmpCharList, ho]
      exact Ordering.noConfusion h'
    · have hab : a.toNat = b.toNat := cmpNat_eq_iff.mp ho
      have h' : cmpCharList x y = .eq := by
        rw [← h]; simp only [cmpCharList, ho]
      cases c with
      | nil => rfl
      | cons d z =>
        simp only [cmpCharList, hab]
        rcases hd : cmpNat b.toNat d.toNat with _ | _ | _
        · rfl
        · exact cmpCharList_eq_congr h' z
        · rfl
    · have h' : Ordering.gt = Ordering.eq := by
        rw [← h]; simp only [cmpCharList, ho]
      exact Ordering.noConfusion h'

theorem cmpCharList_lt_trans :
    ∀ {a b c : List Char}, cmpCharList a b = .lt → cmpCharList b c = .lt →
      cmpCharList a c = .lt
  | [], [], _, h1, _ => by simp [cmpCharList] at h1
  | [], _ :: _, [], _, h2 => by simp [cmpCharList] at h2
  | [], _ :: _, _ :: _, _, _ => by simp [cmpCharList]
  | _ :: _, [], _, h1, _ => by simp [cmpCharList] at h1
  | _ :: _, _ :: _, [], _, h2 => by simp [cmpCharList] at h2
  | a :: x, b :: y, c :: z, h1, h2 => by
    rcases h1o : cmpNat a.toNat b.toNat with _ | _ | _ <;>
      rcases h2o : cmpNat b.toNat c.toNat with _ | _ | _
    · -- lt, lt
      have hac : cmpNat a.toNat c.toNat = .lt :=
        cmpNat_lt_iff.mpr (Nat.lt_trans (cmpNat_lt_iff.mp h1o) (cmpNat_lt_iff.mp h2o))
      simp only [cmpCharList, hac]
    · -- lt, eq
      have hac : cmpNat a.toNat c.toNat = .lt := by
        rw [← cmpNat_eq_iff.mp h2o]; exact h1o
      simp only [cmpCharList, hac]
    · -- lt, gt: h2 absurd
      have h2' : Ordering.gt = Ordering.lt := by
        rw [← h2]; simp only [cmpCharList, h2o]
      exact Ordering.noConfusion h2'
    · -- eq, lt
      have hac : cmpNat a.toNat c.toNat = .lt := by
        rw [cmpNat_eq_iff.mp h1o]; exact h2o
      simp only [cmpCharList, hac]
    · -- eq, eq: recurse on tails
      have hac : cmpNat a.toNat c.toNat = .eq := by
        rw [cmpNat_eq_iff.mp h1o]; exact h2o
      have h1' : cmpCharList x y = .lt := by
        rw [← h1]; simp only [cmpCharList, h1o]
      have h2' : cmpCharList y z = .lt := by
        rw [← h2]; simp only [cmpCharList, h2o]
      simp only [cmpCharList, hac]
      exact cmpCharList_lt_trans h1' h2'
    · -- eq, gt: h2 absurd
      have h2' : Ordering.gt = Ordering.lt := by
        rw [← h2]; simp only [cmpCharList, h2o]
      exact Ordering.noConfusion h2'
    all_goals
      have h1' : Ordering.gt = Ordering.lt := by
        rw [← h1]; simp only [cmpCharList, h1o]
      exact Ordering.noConfusion h1'

theorem cmpSeg_refl (a : Seg) : cmpSeg a a = some .eq := by
  cases a <;> simp [cmpSeg, cmpNat_refl, cmpCharList_refl]

theorem cmpSeg_swap {a b : Seg} {o : Ordering} (h : cmpSeg a b = some o) :
    cmpSeg b a = some o.swap := by
  cases a <;> cases b <;> simp_all [cmpSeg]
  · exact cmpNat_swap h
  · exact cmpCharList_swap h

theorem cmpSeg_eq_congr {a b : Seg} (h : cmpSeg a b = some .eq) :
    ∀ c, cmpSeg a c = cmpSeg b c := by
  intro c
  cases a <;> cases b <;> simp_all [cmpSeg]
  · rw [cmpNat_eq_iff.mp h]
  · cases c <;> simp [cmpSeg]
    exact cmpCharList_eq_congr h _

theorem cmpSeg_lt_trans {a b c : Seg} (h1 : cmpSeg a b = some .lt)
    (h2 : cmpSeg b c = some .lt) : cmpSeg a c = some .lt := by
  cases a <;> cases b <;> cases c <;> simp_all [cmpSeg]
  · exact cmpNat_lt_iff.mpr (Nat.lt_trans (cmpNat_lt_iff.mp h1) (cmpNat_lt_iff.mp h2))
  · exact cmpCharList_lt_trans h1 h2

theorem cmpKey_refl (k : List Seg) : cmpKey k k = some .eq := by
  induction k with
  | nil => rfl
  | cons a x ih => simp [cmpKey, cmpSeg_refl a, ih]

theorem cmpKey_swap :
    ∀ {a b : List Seg} {o : Ordering}, cmpKey a b = some o → cmpKey b a = some o.swap
  | [], [], o, h => by
    have h' : Ordering.eq = o := Option.some.inj h
    subst h'; rfl
  | [], _ :: _, o, h => by
    have h' : Ordering.lt = o := Option.some.inj h
    subst h'; rfl
  | _ :: _, [], o, h => by
    have h' : Ordering.gt = o := Option.some.inj h
    subst h'; rfl
  | a :: x, b :: y, o, h => by
    rcases ho : cmpSeg a b with _ | o2
    · have h' : (none : Option Ordering) = some o := by
        rw [← h]; simp only [cmpKey, ho]
      exact Option.noConfusion h'
    · rcases o2 with _ | _ | _
      · have h' : Ordering.lt = o := by
          have h2 : some Ordering.lt = some o := by rw [← h]; simp only [cmpKey, ho]
          exact Option.some.inj h2
        subst h'
        have hsw : cmpSeg b a = some Ordering.gt := cmpSeg_swap ho
        simp only [cmpKey, hsw]
        rfl
      · have h' : cmpKey x y = some o := by rw [← h]; simp only [cmpKey, ho]
        have hsw : cmpSeg b a = some Ordering.eq := cmpSeg_swap ho
        simp only [cmpKey, hsw]
        exact cmpKey_swap h'
      · have h' : Ordering.gt = o := by
          have h2 : some Ordering.gt = some o := by rw [← h]; simp only [cmpKey, ho]
          exact Option.some.inj h2
        subst h'
        have hsw : cmpSeg b a = some Ordering.lt := cmpSeg_swap ho
        simp only [cmpKey, hsw]
        rfl

theorem cmpKey_eq_congr :
    ∀ {a b : List Seg}, cmpKey a b = some .eq →
      ∀ c, cmpKey a c = cmpKey b c
  | [], [], _, _ => rfl
  | [], _ :: _, h, _ => by simp [cmpKey] at h
  | _ :: _, [], h, _ => by simp [cmpKey] at h
  | a :: x, b :: y, h, c => by
    rcases ho : cmpSeg a b with _ | o2
    · have h' : (none : Option Ordering) = some Ordering.eq := by
        rw [← h]; simp only [cmpKey, ho]
      exact Option.noConfusion h'
    · rcases o2 with _ | _ | _
      · have h' : some Ordering.lt = some Ordering.eq := by
          rw [← h]; simp only [cmpKey, ho]
        exact Ordering.noConfusion (Option.some.inj h')
      · have h' : cmpKey x y = some .eq := by rw [← h]; simp only [cmpKey, ho]
        cases c with
        | nil => rfl
        | cons d z =>
          simp only [cmpKey, cmpSeg_eq_congr ho d]
          rcases hd : cmpSeg b d with _ | o3
          · rfl
          · rcases o3 with _ | _ | _
            · rfl
            · exact cmpKey_eq_congr h' z
            · rfl
      · have h' : some Ordering.gt = some Ordering.eq := by
          rw [← h]; simp only [cmpKey, ho]
        exact Ordering.noConfusion (Option.some.inj h')

theorem cmpKey_lt_trans :
    ∀ {a b c : List Seg}, cmpKey a b = some .lt → cmpKey b c = some .lt →
      cmpKey a c = some .lt
  | [], [], _, h1, _ => by simp [cmpKey] at h1
  | [], _ :: _, [], _, h2 => by simp [cmpKey] at h2
  | [], _ :: _, _ :: _, _, _ => by simp [cmpKey]
  | _ :: _, [], _, h1, _ => by simp [cmpKey] at h1
  | _ :: _, _ :: _, [], _, h2 => by simp [cmpKey] at h2
  | a :: x, b :: y, c :: z, h1, h2 => by
    rcases h1o : cmpSeg a b with _ | o1
    · have h' : (none : Option Ordering) = some Ordering.lt := by
        rw [← h1]; simp only [cmpKey, h1o]
      exact Option.noConfusion h'
    rcases h2o : cmpSeg b c with _ | o2
    · have h' : (none : Option Ordering) = some Ordering.lt := by
        rw [← h2]; simp only [cmpKey, h2o]
      exact Option.noConfusion h'
    rcases o1 with _ | _ | _ <;> rcases o2 with _ | _ | _
    · -- lt, lt
      have hac : cmpSeg a c = some Ordering.lt := cmpSeg_lt_trans h1o h2o
      simp only [cmpKey, hac]
    · -- lt, eq: head c equals head b, so a-vs-c behaves like a-vs-b
      have hcb : cmpSeg c b = some Ordering.eq := cmpSeg_swap h2o
      have hca : cmpSeg c a = cmpSeg b a := cmpSeg_eq_congr hcb a
      have hba : cmpSeg b a = some Ordering.gt := cmpSeg_swap h1o
      have hac : cmpSeg a c = some Ordering.lt := cmpSeg_swap (hca.trans hba)
      simp only [cmpKey, hac]
    · -- lt, gt: h2 is absurd
      have h' : some Ordering.gt = some Ordering.lt := by
        rw [← h2]; simp only [cmpKey, h2o]
      exact Ordering.noConfusion (Option.some.inj h')
    · -- eq, lt
      have hac : cmpSeg a c = some Ordering.lt := by
        rw [cmpSeg_eq_congr h1o c, h2o]
      simp only [cmpKey, hac]
    · -- eq, eq: recurse on tails
      have hac : cmpSeg a c = some Ordering.eq := by
        rw [cmpSeg_eq_congr h1o c, h2o]
      have h1' : cmpKey x y = some Ordering.lt := by rw [← h1]; simp only [cmpKey, h1o]
      have h2' : cmpKey y z = some Ordering.lt := by rw [← h2]; simp only [cmpKey, h2o]
      simp only [cmpKey, hac]
      exact cmpKey_lt_trans h1' h2'
    · -- eq, gt: h2 absurd
      have h' : some Ordering.gt = some Ordering.lt := by
        rw [← h2]; simp only [cmpKey, h2o]
      exact Ordering.noConfusion (Option.some.inj h')
    all_goals
      have h' : some Ordering.gt = some Ordering.lt := by
        rw [← h1]; simp only [cmpKey, h1o]
      exact Ordering.noConfusion (Option.some.inj h')

theorem verLe_refl (a : String) : verLe a a :=
  Or.inr (cmpKey_refl _)

theorem verLe_of_gt {a b : String} (h : cmpVer a b = some .gt) : verLe b a :=
  Or.inl (cmpKey_swap h)

theorem verLe_trans {a b c : String} (h1 : verLe a b) (h2 : verLe b c) :
    verLe a c := by
  rcases h1 with h1 | h1 <;> rcases h2 with h2 | h2
  · exact Or.inl (cmpKey_lt_trans h1 h2)
  · have := cmpKey_eq_congr (cmpKey_swap h2) (verKey a.data)
    exact Or.inl (by
      have h3 : cmpVer c a = some Ordering.gt := this.trans (cmpKey_swap h1)
      exact cmpKey_swap h3)
  · exact Or.inl ((cmpKey_eq_congr h1 (verKey c.data)).trans h2)
  · exact Or.inr ((cmpKey_eq_congr h1 (verKey c.data)).trans h2)

theorem insertVer_ok {v : String} :
    ∀ {l : List String}, (∀ w ∈ l, (cmpVer v w).isSome) →
      ∃ l2, insertVer v l = some l2 ∧ l2.Perm (v :: l)
  | [], _ => ⟨[v], rfl, List.Perm.refl _⟩
  | w :: l, h => by
    rcases ho : cmpVer v w with _ | o
    · have := h w (List.mem_cons_self w l)
      rw [ho] at this
      simp at this
    · rcases o with _ | _ | _
      · exact ⟨v :: w :: l, by simp [insertVer, ho], List.Perm.refl _⟩
      · exact ⟨v :: w :: l, by simp [insertVer, ho], List.Perm.refl _⟩
      · obtain ⟨l2, hl2, hperm⟩ :=
          insertVer_ok (fun u hu => h u (List.mem_cons_of_mem w hu))
        refine ⟨w :: l2, by simp [insertVer, ho, hl2], ?_⟩
        exact (hperm.cons w).trans (List.Perm.swap v w l)

theorem insertVer_head {v : String} :
    ∀ {l l2 : List String}, insertVer v l = some l2 →
      l2.head? = some v ∨ l2.head? = l.head?
  | [], l2, h => by
    simp [insertVer] at h
    subst h
    exact Or.inl rfl
  | w :: l, l2, h => by
    rcases ho : cmpVer v w with _ | o
    · simp [insertVer, ho] at h
    · rcases o with _ | _ | _
      · simp [insertVer, ho] at h
        subst h
        exact Or.inl rfl
      · simp [insertVer, ho] at h
        subst h
        exact Or.inl rfl
      · simp [insertVer, ho] at h
        obtain ⟨l3, _, h3⟩ := h
        subst h3
        exact Or.inr rfl

theorem insertVer_chain {v : String} :
    ∀ {l l2 : List String}, List.Chain' verLe l → insertVer v l = some l2 →
      List.Chain' verLe l2
  | [], l2, _, h => by
    simp [insertVer] at h
    subst h
    simp
  | w :: l, l2, hc, h => by
    rcases ho : cmpVer v w with _ | o
    · simp [insertVer, ho] at h
    · rcases o with _ | _ | _
      · simp [insertVer, ho] at h
        subst h
        exact hc.cons (Or.inl ho)
      · simp [insertVer, ho] at h
        subst h
        exact hc.cons (Or.inr ho)
      · simp [insertVer, ho] at h
        obtain ⟨l3, h3, hl2⟩ := h
        subst hl2
        have hcl : List.Chain' verLe l := hc.tail
        have hchain3 : List.Chain' verLe l3 := insertVer_chain hcl h3
        rw [List.chain'_cons']
        refine ⟨?_, hchain3⟩
        intro b hb
        rcases insertVer_head h3 with hh | hh
        · rw [hb] at hh
          have hbv : b = v := by
            injection hh.symm with h4
            exact h4.symm
          subst hbv
          exact verLe_of_gt ho
        · rw [hb] at hh
          rcases l with _ | ⟨u, l'⟩
          · simp at hh
          · have hbu : b = u := by
              injection hh.symm with h4
              exact h4.symm
            subst hbu
            rcases List.chain'_cons.mp hc with ⟨h5, _⟩
            exact h5

theorem sortVers_ok :
    ∀ {vs : List String}, PairwiseComparable vs →
      ∃ l2, sortVers vs = some l2 ∧ l2.Perm vs ∧ List.Chain' verLe l2
  | [], _ => ⟨[], rfl, List.Perm.refl _, by simp⟩
  | v :: vs, h => by
    obtain ⟨l1, hl1, hperm1, hchain1⟩ :=
      sortVers_ok (fun a ha b hb =>
        h a (List.mem_cons_of_mem v ha) b (List.mem_cons_of_mem v hb))
    have hcmp : ∀ w ∈ l1, (cmpVer v w).isSome := by
      intro w hw
      exact h v (List.mem_cons_self v vs) w (List.mem_cons_of_mem v (hperm1.mem_iff.mp hw))
    obtain ⟨l2, hl2, hperm2⟩ := insertVer_ok hcmp
    refine ⟨l2, by simp [sortVers, hl1, hl2], ?_, insertVer_chain hchain1 hl2⟩
    exact hperm2.trans (hperm1.cons v)

/-- In a `verLe`-sorted list every member is `verLe` the last element. -/
theorem chain_verLe_getLast :
    ∀ {l : List String} (hne : l ≠ []), List.Chain' verLe l →
      ∀ x ∈ l, verLe x (l.getLast hne)
  | [], hne, _, _, _ => absurd rfl hne
  | [a], _, _, x, hx => by
    have hxa : x = a := by simpa using hx
    rw [hxa]
    exact verLe_refl a
  | a :: b :: l, _, hc, x, hx => by
    rcases List.chain'_cons.mp hc with ⟨hab, hc2⟩
    have hlast : (a :: b :: l).getLast (by simp) = (b :: l).getLast (by simp) := by
      simp [List.getLast]
    rw [hlast]
    rcases List.mem_cons.mp hx with hxa | hxbl
    · subst hxa
      exact verLe_trans hab
        (chain_verLe_getLast (by simp) hc2 b (List.mem_cons_self b l))
    · exact chain_verLe_getLast (by simp) hc2 x hxbl

/-- With more than one observed version and pairwise-comparable sort keys,
the per-package resolution succeeds and picks an observed version whose key
is maximal. -/
theorem resolveOne_max {vs : List String} (h2 : 1 < vs.length)
    (hc : PairwiseComparable vs) :
    ∃ v, resolveOne vs = some v ∧ v ∈ vs ∧ ∀ w ∈ vs, verLe w v := by
  obtain ⟨l2, hl2, hperm, hchain⟩ := sortVers_ok hc
  have hne : l2 ≠ [] := by
    intro hnil
    subst hnil
    have hlen := hperm.length_eq
    simp at hlen
    omega
  refine ⟨l2.getLast hne, ?_, ?_, ?_⟩
  · simp only [resolveOne, if_pos h2, hl2, Option.some_bind]
    exact List.getLast?_eq_getLast l2 hne
  · exact hperm.mem_iff.mp (List.getLast_mem hne)
  · intro w hw
    exact chain_verLe_getLast hne hchain _ (hperm.mem_iff.mpr hw)

/-- C1: for every package name observed with more than one version (with
pairwise-comparable segment-wise keys, the case in which a maximum under the
key order exists), the conflict resolver returns an observed version whose
segment-wise key (split on `.` and `-`, all-digit segments as integers,
other segments as strings, compared as tuples) is at least every observed
version's key; in particular the observed set {"1.2.0", "1.10.0"} resolves,
in either iteration order, to "1.10.0" — not the lexicographic maximum
"1.2.0". -/
theorem claim_C1 :
    (∀ vs : List String, 1 < vs.length → PairwiseComparable vs →
      ∃ v, resolveOne vs = some v ∧ v ∈ vs ∧ ∀ w ∈ vs, verLe w v) ∧
    resolveOne ["1.2.0", "1.10.0"] = some "1.10.0" ∧
    resolveOne ["1.10.0", "1.2.0"] = some "1.10.0" ∧
    resolve_version_conflicts [("P", ["1.2.0", "1.10.0"])] =
      some ([("P", ["1.2.0", "1.10.0"])], [("P", "1.10.0")]) :=
  ⟨fun _ h2 hc => resolveOne_max h2 hc, by decide, by decide, by decide⟩

/-- Witness for C1 at the claim's own example set. -/
theorem claim_C1_witness :
    (1 < (["1.2.0", "1.10.0"] : List String).length ∧
      PairwiseComparable ["1.2.0", "1.10.0"]) ∧
    ∃ v, resolveOne ["1.2.0", "1.10.0"] = some v ∧ v ∈ ["1.2.0", "1.10.0"] ∧
      ∀ w ∈ ["1.2.0", "1.10.0"], verLe w v :=
  ⟨⟨by decide, by unfold PairwiseComparable; decide⟩,
    claim_C1.1 ["1.2.0", "1.10.0"] (by decide)
      (by unfold PairwiseComparable; decide)⟩

/-- C2 as stated is false: on the name "A" observed with versions
{"1.0.2", "1.0.x"} the sort key comparison pits the integer segment `2`
against the string segment `"x"`, and Python raises `TypeError`
("'<' not supported between instances of 'str' and 'int'") — the resolver
does not return. -/
theorem claim_C2_counterexample :
    resolve_version_conflicts [("A", ["1.0.2", "1.0.x"])] = none := by decide

/-- C2 (amended): the conflict resolver returns normally and assigns exactly
one resolved version to every name provided that, for each name, every pair
of observed versions has comparable segment-wise keys (no integer segment is
compared against a string segment; in particular whenever the name has a
single observed version); a single observed version resolves trivially to
that version. With incomparable mixed segments the resolver instead raises
(see the counterexample). -/
theorem claim_C2 :
    ∀ pkgs : List (String × List String),
      (∀ p ∈ pkgs, p.2 ≠ [] ∧ PairwiseComparable p.2) →
      ∃ conflicts resolutions,
        resolve_version_conflicts pkgs = some (conflicts, resolutions) ∧
        resolutions.map Prod.fst = pkgs.map Prod.fst ∧
        ∀ n v, (n, [v]) ∈ pkgs → (n, v) ∈ resolutions
  | [], _ => ⟨[], [], rfl, rfl, by simp⟩
  | (name, []) :: rest, hall => by
    have hne := (hall (name, []) (List.mem_cons_self _ _)).1
    exact absurd rfl hne
  | (name, [v0]) :: rest, hall => by
    obtain ⟨cs, rs, hr, hmap, hsingle⟩ :=
      claim_C2 rest (fun p hp => hall p (List.mem_cons_of_mem _ hp))
    have h1 : resolveOne [v0] = some v0 := rfl
    refine ⟨cs, (name, v0) :: rs, ?_, ?_, ?_⟩
    · simp [resolve_version_conflicts, h1, hr]
    · simp [hmap]
    · intro n v' hnv
      rcases List.mem_cons.mp hnv with heq | hmem2
      · have hn : n = name := congrArg Prod.fst heq
        have h2 : [v'] = [v0] := congrArg Prod.snd heq
        injection h2 with h3
        subst hn
        subst h3
        exact List.mem_cons_self _ _
      · exact List.mem_cons_of_mem _ (hsingle n v' hmem2)
  | (name, v0 :: v1 :: vtail) :: rest, hall => by
    have hlen : 1 < (v0 :: v1 :: vtail).length := by
      simp only [List.length_cons]
      omega
    obtain ⟨hne, hcomp⟩ := hall _ (List.mem_cons_self _ _)
    obtain ⟨v, hv, hmem, hmax⟩ := resolveOne_max hlen hcomp
    obtain ⟨cs, rs, hr, hmap, hsingle⟩ :=
      claim_C2 rest (fun p hp => hall p (List.mem_cons_of_mem _ hp))
    refine ⟨(name, v0 :: v1 :: vtail) :: cs, (name, v) :: rs, ?_, ?_, ?_⟩
    · simp only [resolve_version_conflicts, hv, hr]
      rw [if_pos hlen]
    · simp [hmap]
    · intro n v' hnv
      rcases List.mem_cons.mp hnv with heq | hmem2
      · exfalso
        have h2 : [v'] = v0 :: v1 :: vtail := congrArg Prod.snd heq
        simp at h2
      · exact List.mem_cons_of_mem _ (hsingle n v' hmem2)

/-- Witness for C2 at a concrete two-package map (one conflicted name, one
single-version name). -/
theorem claim_C2_witness :
    (∀ p ∈ [("A", ["1.2.0", "1.10.0"]), ("B", ["2.0"])],
      p.2 ≠ ([] : List String) ∧ PairwiseComparable p.2) ∧
    ∃ conflicts resolutions,
      resolve_version_conflicts [("A", ["1.2.0", "1.10.0"]), ("B", ["2.0"])] =
        some (conflicts, resolutions) ∧
      resolutions.map Prod.fst =
        ([("A", ["1.2.0", "1.10.0"]), ("B", ["2.0"])]).map Prod.fst ∧
      ∀ n v, (n, [v]) ∈ [("A", ["1.2.0", "1.10.0"]), ("B", ["2.0"])] →
        (n, v) ∈ resolutions :=
  ⟨by unfold PairwiseComparable; decide,
    claim_C2 _ (by unfold PairwiseComparable; decide)⟩

/-- On a table none of whose labels is `Other`, the loop returns `Other`
exactly when no entry matches. -/
theorem categorizeFrom_eq_other {name : String} :
    ∀ {L : List (String × List String)}, (∀ e ∈ L, e.1 ≠ "Other") →
      (categorizeFrom L name = "Other" ↔ ∀ e ∈ L, catMatches name e = false)
  | [], _ => by simp [categorizeFrom]
  | e :: rest, hL => by
    by_cases hm : catMatches name e
    · simp only [categorizeFrom, hm, if_true]
      constructor
      · intro h
        exact absurd h (hL e (List.mem_cons_self _ _))
      · intro h
        have := h e (List.mem_cons_self _ _)
        rw [hm] at this
        exact absurd this (by simp)
    · have hm' : catMatches name e = false := by
        simpa using hm
      simp only [categorizeFrom, hm', if_neg, Bool.false_eq_true, if_false]
      rw [categorizeFrom_eq_other
        (fun e2 he2 => hL e2 (List.mem_cons_of_mem _ he2))]
      constructor
      · intro h
        intro e2 he2
        rcases List.mem_cons.mp he2 with rfl | he2'
        · exact hm'
        · exact h e2 he2'
      · intro h e2 he2
        exact h e2 (List.mem_cons_of_mem _ he2)

/-- The loop returns the label of the first matching entry. -/
theorem categorizeFrom_first {name : String} :
    ∀ (pre : List (String × List String)) (e : String × List String) post,
      (∀ e2 ∈ pre, catMatches name e2 = false) → catMatches name e = true →
      categorizeFrom (pre ++ e :: post) name = e.1
  | [], e, post, _, hm => by simp [categorizeFrom, hm]
  | e2 :: pre, e, post, hpre, hm => by
    have h2 : catMatches name e2 = false := hpre e2 (List.mem_cons_self _ _)
    simp only [List.cons_append, categorizeFrom, h2, Bool.false_eq_true, if_false]
    exact categorizeFrom_first pre e post
      (fun x hx => hpre x (List.mem_cons_of_mem _ hx)) hm

/-- C6: categorization is total and deterministic by construction
(`categorize_package` is a function); a name is sent to the catch-all
`Other` exactly when no category entry's prefix list matches it
(case-sensitively), and whenever some entry matches, the result is the
label of the first matching entry in the table's iteration order. -/
theorem claim_C6 :
    ∀ name : String,
      (categorize_package name = "Other" ↔
        ∀ e ∈ package_categories, catMatches name e = false) ∧
      (∀ pre e post, package_categories = pre ++ e :: post →
        catMatches name e = true → (∀ e2 ∈ pre, catMatches name e2 = false) →
        categorize_package name = e.1) := by
  intro name
  constructor
  · exact categorizeFrom_eq_other (by decide)
  · intro pre e post htab hm hpre
    unfold categorize_package
    rw [htab]
    exact categorizeFrom_first pre e post hpre hm

/-- Witness for C6: a name matching the first category, and a name matching
no category. -/
theorem claim_C6_witness :
    categorize_package "AWSSDK.S3" = "AWS SDK" ∧
    categorize_package "Dapper" = "Other" :=
  ⟨(claim_C6 "AWSSDK.S3").2 [] ("AWS SDK", ["AWSSDK.", "Amazon."])
      [("Microsoft Extensions", ["Microsoft.Extensions."]),
       ("Microsoft Core",
        ["Microsoft.NETFramework", "Microsoft.Bcl", "System."]),
       ("Testing", ["FluentAssertions", "Castle.Core", "Moq", "NUnit", "xunit"]),
       ("Logging", ["Common.Logging", "log4net", "NLog", "Serilog"]),
       ("JSON", ["Newtonsoft.Json", "System.Text.Json"]),
       ("Utilities", ["ZstdSharp", "Fare", "AutoMapper"])]
      rfl (by decide) (by simp),
    (claim_C6 "Dapper").1.mpr (by decide)⟩

/-- An element whose `id` attribute is absent or empty, or whose `version`
attribute is absent or empty, leaves the extractor state untouched. -/
theorem configStep_skip (file : String) (st : ExtState) (e : ConfigPackage)
    (h : e.idAttr = none ∨ e.idAttr = some "" ∨ e.versionAttr = none ∨
      e.versionAttr = some "") :
    configStep file st e = st := by
  obtain ⟨i, v⟩ := e
  simp only at h
  rcases h with h | h | h | h <;> subst h
  · cases v <;> rfl
  · cases v with
    | none => rfl
    | some s => simp [configStep]
  · cases i <;> rfl
  · cases i with
    | none => rfl
    | some s => simp [configStep]

/-- Same for a `PackageReference` element with absent or empty `Include` or
`Version`. -/
theorem csprojStep_skip (file : String) (st : ExtState) (e : CsprojPackageRef)
    (h : e.includeAttr = none ∨ e.includeAttr = some "" ∨ e.versionAttr = none ∨
      e.versionAttr = some "") :
    csprojStep file st e = st := by
  obtain ⟨i, v⟩ := e
  simp only at h
  rcases h with h | h | h | h <;> subst h
  · cases v <;> rfl
  · cases v with
    | none => rfl
    | some s => simp [csprojStep]
  · cases i <;> rfl
  · cases i with
    | none => rfl
    | some s => simp [csprojStep]

/-- C10: the version collector records a pair only when both the name and
version attributes are present and non-empty. An element lacking either (or
carrying an empty string) contributes nothing — removing it from the
element list leaves the state identical, and processing of the surrounding
elements continues unchanged (the functions are total, so the skip is
silent); an element with both attributes non-empty updates both the
package-version set and the source-file list. This holds for both
extraction shapes (`packages.config` and `.csproj`). -/
theorem claim_C10 :
    (∀ file st e, (e.idAttr = none ∨ e.idAttr = some "" ∨
        e.versionAttr = none ∨ e.versionAttr = some "") →
      configStep file st e = st) ∧
    (∀ file st (xs ys : List ConfigPackage) e,
      (e.idAttr = none ∨ e.idAttr = some "" ∨ e.versionAttr = none ∨
        e.versionAttr = some "") →
      extract_from_packages_config file (xs ++ e :: ys) st =
        extract_from_packages_config file (xs ++ ys) st) ∧
    (∀ file st e, (e.includeAttr = none ∨ e.includeAttr = some "" ∨
        e.versionAttr = none ∨ e.versionAttr = some "") →
      csprojStep file st e = st) ∧
    (∀ file st (xs ys : List CsprojPackageRef) e,
      (e.includeAttr = none ∨ e.includeAttr = some "" ∨ e.versionAttr = none ∨
        e.versionAttr = some "") →
      extract_from_csproj file (xs ++ e :: ys) st =
        extract_from_csproj file (xs ++ ys) st) ∧
    (∀ file st n v, n ≠ "" → v ≠ "" →
      configStep file st ⟨some n, some v⟩ =
        ⟨addVersionTo st.packages n v, addSourceTo st.sources n file⟩) := by
  refine ⟨configStep_skip, ?_, csprojStep_skip, ?_, ?_⟩
  · intro file st xs ys e h
    unfold extract_from_packages_config
    rw [List.foldl_append, List.foldl_append, List.foldl_cons,
      configStep_skip file _ e h]
  · intro file st xs ys e h
    unfold extract_from_csproj
    rw [List.foldl_append, List.foldl_append, List.foldl_cons,
      csprojStep_skip file _ e h]
  · intro file st n v hn hv
    simp [configStep, hn, hv]

/-- Witness for C10: a concrete element with a missing version is skipped,
and a well-formed element is recorded. -/
theorem claim_C10_witness :
    configStep "pkgs.config" ⟨[], []⟩ ⟨some "Newtonsoft.Json", none⟩ = ⟨[], []⟩ ∧
    extract_from_packages_config "pkgs.config"
      ([⟨some "A", some "1.0"⟩] ++ ⟨some "B", some ""⟩ :: [])
      ⟨[], []⟩ =
      extract_from_packages_config "pkgs.config" ([⟨some "A", some "1.0"⟩] ++ [])
        ⟨[], []⟩ ∧
    configStep "pkgs.config" ⟨[], []⟩ ⟨some "A", some "1.0"⟩ =
      ⟨addVersionTo [] "A" "1.0", addSourceTo [] "A" "pkgs.config"⟩ :=
  ⟨claim_C10.1 "pkgs.config" ⟨[], []⟩ ⟨some "Newtonsoft.Json", none⟩
      (Or.inr (Or.inr (Or.inl rfl))),
    claim_C10.2.1 "pkgs.config" ⟨[], []⟩ [⟨some "A", some "1.0"⟩] []
      ⟨some "B", some ""⟩ (Or.inr (Or.inr (Or.inr rfl))),
    claim_C10.2.2.2.2 "pkgs.config" ⟨[], []⟩ "A" "1.0" (by decide) (by decide)⟩

theorem stripLit_some_length {lit s t : List Char} (h : stripLit lit s = some t) :
    t.length + lit.length = s.length := by
  unfold stripLit at h
  split at h
  · rename_i hpre
    injection h with h'
    subst h'
    obtain ⟨u, hu⟩ := List.isPrefixOf_iff_prefix.mp hpre
    subst hu
    simp [List.length_append]
    omega
  · exact absurd h (by simp)

theorem expectChar_some_length {c : Char} {s t : List Char}
    (h : expectChar c s = some t) : t.length + 1 = s.length := by
  rcases s with _ | ⟨x, xs⟩
  · simp [expectChar] at h
  · by_cases hx : x = c
    · simp [expectChar, hx] at h
      subst h
      simp
    · simp [expectChar, hx] at h

/-- A version-strip match always consumes at least one character (in fact at
least the `<PackageReference` literal). -/
theorem matchRPVAt_shrink {s rep rest : List Char}
    (h : matchRPVAt s = some (rep, rest)) : rest.length < s.length := by
  unfold matchRPVAt at h
  split at h
  · exact absurd h (by simp)
  rename_i s1 h1
  split at h
  · exact absurd h (by simp)
  split at h
  · exact absurd h (by simp)
  rename_i s2 h2
  split at h
  · exact absurd h (by simp)
  split at h
  · exact absurd h (by simp)
  rename_i s3 h3
  split at h
  · exact absurd h (by simp)
  split at h
  · exact absurd h (by simp)
  rename_i s4 h4
  split at h
  · exact absurd h (by simp)
  split at h
  · exact absurd h (by simp)
  rename_i s5 h5
  have l1 := stripLit_some_length h1
  have l2 := stripLit_some_length h2
  have l3 := expectChar_some_length h3
  have l4 := stripLit_some_length h4
  have l5 := expectChar_some_length h5
  have d1 : (List.drop (List.takeWhile pyIsSpace s1).length s1).length ≤ s1.length := by
    simp [List.length_drop]
  have d2 : (List.drop (List.takeWhile (fun x => decide (x ≠ dq)) s2).length s2).length
      ≤ s2.length := by
    simp [List.length_drop]
  have d3 : (List.drop (List.takeWhile pyIsSpace s3).length s3).length ≤ s3.length := by
    simp [List.length_drop]
  have d4 : (List.drop (List.takeWhile (fun x => decide (x ≠ dq)) s4).length s4).length
      ≤ s4.length := by
    simp [List.length_drop]
  have hPR : 0 < litPackageRef.length := by decide
  split at h
  · rename_i c r h6
    have d5 : r.length + 1 = (List.drop (List.takeWhile pyIsSpace s5).length s5).length := by
      rw [h6]
      simp
    have d5b : (List.drop (List.takeWhile pyIsSpace s5).length s5).length ≤ s5.length := by
      simp [List.length_drop]
    split at h
    · injection h with hpair
      have hb : r = rest := congrArg Prod.snd hpair
      subst hb
      omega
    · injection h with hpair
      have hb : List.drop (List.takeWhile pyIsSpace s5).length s5 = rest :=
        congrArg Prod.snd hpair
      subst hb
      omega
  · injection h with hpair
    have hb : ([] : List Char) = rest := congrArg Prod.snd hpair
    subst hb
    simp only [List.length_nil]
    omega

/-- A package-removal match always consumes at least one character. -/
theorem matchRemRefAt_shrink {name : String} {s rest : List Char}
    (h : matchRemRefAt name s = some rest) : rest.length < s.length := by
  unfold matchRemRefAt at h
  split at h
  · exact absurd h (by simp)
  rename_i s1 h1
  split at h
  · exact absurd h (by simp)
  split at h
  · exact absurd h (by simp)
  rename_i s2 h2
  split at h
  · exact absurd h (by simp)
  rename_i s3 h3
  split at h
  · exact absurd h (by simp)
  rename_i s4 h4
  split at h
  · exact absurd h (by simp)
  rename_i s5 h5
  injection h with hrest
  subst hrest
  have l1 := stripLit_some_length h1
  have l2 := stripLit_some_length h2
  have l3 := stripLit_some_length h3
  have l4 := expectChar_some_length h4
  have l5 := expectChar_some_length h5
  have d1 : (List.drop (List.takeWhile pyIsSpace s1).length s1).length ≤ s1.length := by
    simp [List.length_drop]
  have d4 : (List.drop (List.takeWhile (fun x => decide (x ≠ '>')) s4).length s4).length
      ≤ s4.length := by
    simp [List.length_drop]
  have d5 : (List.drop (List.takeWhile pyIsSpace s5).length s5).length ≤ s5.length := by
    simp [List.length_drop]
  have hPR : 0 < litPackageRef.length := by decide
  omega

/-- The fuel of `subRPVAux` is irrelevant once it exceeds the text length:
the scanner always advances. `remove_package_versions_text` is therefore
the true unbounded scan. -/
theorem subRPVAux_fuel :
    ∀ (f1 : Nat) {s : List Char} (f2 : Nat), s.length < f1 → s.length < f2 →
      subRPVAux f1 s = subRPVAux f2 s
  | 0, _, _, h1, _ => absurd h1 (by omega)
  | _ + 1, _, 0, _, h2 => absurd h2 (by omega)
  | f1 + 1, s, f2 + 1, h1, h2 => by
    simp only [subRPVAux]
    rcases hm : matchRPVAt s with _ | ⟨rep, rest⟩
    · cases s with
      | nil => rfl
      | cons c cs =>
        have hc1 : cs.length < f1 := by
          simp only [List.length_cons] at h1
          omega
        have hc2 : cs.length < f2 := by
          simp only [List.length_cons] at h2
          omega
        show c :: subRPVAux f1 cs = c :: subRPVAux f2 cs
        rw [subRPVAux_fuel f1 f2 hc1 hc2]
    · have hs := matchRPVAt_shrink hm
      show rep ++ subRPVAux f1 rest = rep ++ subRPVAux f2 rest
      rw [subRPVAux_fuel f1 f2 (by omega) (by omega)]

/-- Fuel irrelevance for the package-removal scanner. -/
theorem subRemRefAux_fuel (name : String) :
    ∀ (f1 : Nat) {s : List Char} (f2 : Nat), s.length < f1 → s.length < f2 →
      subRemRefAux name f1 s = subRemRefAux name f2 s
  | 0, _, _, h1, _ => absurd h1 (by omega)
  | _ + 1, _, 0, _, h2 => absurd h2 (by omega)
  | f1 + 1, s, f2 + 1, h1, h2 => by
    simp only [subRemRefAux]
    rcases hm : matchRemRefAt name s with _ | rest
    · cases s with
      | nil => rfl
      | cons c cs =>
        have hc1 : cs.length < f1 := by
          simp only [List.length_cons] at h1
          omega
        have hc2 : cs.length < f2 := by
          simp only [List.length_cons] at h2
          omega
        show c :: subRemRefAux name f1 cs = c :: subRemRefAux name f2 cs
        rw [subRemRefAux_fuel name f1 f2 hc1 hc2]
    · have hs := matchRemRefAt_shrink hm
      show subRemRefAux name f1 rest = subRemRefAux name f2 rest
      exact subRemRefAux_fuel name f1 f2 (by omega) (by omega)

/-- On text where the version-strip pattern matches nowhere, the scanner is
the identity (whatever the fuel). -/
theorem subRPVAux_no_match :
    ∀ (fuel : Nat) {s : List Char}, hasRPV s = false → subRPVAux fuel s = s
  | 0, _, _ => rfl
  | fuel + 1, s, h => by
    cases s with
    | nil =>
      have hm : matchRPVAt [] = none := by
        rcases hmm : matchRPVAt [] with _ | p
        · rfl
        · rw [hasRPV, hmm] at h
          simp at h
      simp [subRPVAux, hm]
    | cons c cs =>
      rw [hasRPV] at h
      rcases Bool.or_eq_false_iff.mp h with ⟨ha, hb⟩
      have hm : matchRPVAt (c :: cs) = none := by
        rcases hmm : matchRPVAt (c :: cs) with _ | p
        · rfl
        · rw [hmm] at ha
          simp at ha
      simp only [subRPVAux, hm]
      rw [subRPVAux_no_match fuel hb]

/-- The version strip is a no-op on text with no match. -/
theorem remove_package_versions_noop {s : List Char} (h : hasRPV s = false) :
    remove_package_versions_text s = s :=
  subRPVAux_no_match _ h

/-- C3 as stated is false: the strip substitution is not idempotent on
every input. On a `PackageReference` element carrying two `Version`
attributes, one application removes only the first attribute (group 3,
`\s*/?`, eats the whitespace before the second one, whose text then lies
beyond the match and is rescanned with no `<PackageReference` prefix); the
second application removes the second attribute, so applying twice differs
from applying once. -/
theorem claim_C3_counterexample :
    remove_package_versions_text exDoubleVersion =
      "<PackageReference Include=\"A\" Version=\"2\" />".data ∧
    remove_package_versions_text (remove_package_versions_text exDoubleVersion) =
      "<PackageReference Include=\"A\" />".data ∧
    remove_package_versions_text (remove_package_versions_text exDoubleVersion) ≠
      remove_package_versions_text exDoubleVersion := by
  refine ⟨by decide, by decide, by decide⟩

/-- C3 (amended): the strip substitution leaves unchanged any text in which
the versioned-package-reference pattern matches nowhere — in particular
already-migrated text, where no package-reference element carries a version
attribute — and consequently a second application is a no-op whenever the
first application's output is match-free. Idempotence on all inputs fails:
an element with two `Version` attributes needs two applications (see the
counterexample). -/
theorem claim_C3 :
    (∀ s : List Char, hasRPV s = false → remove_package_versions_text s = s) ∧
    (∀ s : List Char, hasRPV (remove_package_versions_text s) = false →
      remove_package_versions_text (remove_package_versions_text s) =
        remove_package_versions_text s) :=
  ⟨fun _ h => remove_package_versions_noop h,
   fun _ h => remove_package_versions_noop h⟩

/-- Witness for C3 on already-migrated text. -/
theorem claim_C3_witness :
    hasRPV "<PackageReference Include=\"A\" />".data = false ∧
    remove_package_versions_text "<PackageReference Include=\"A\" />".data =
      "<PackageReference Include=\"A\" />".data :=
  ⟨by decide, claim_C3.1 _ (by decide)⟩

/-- C4: for each of the four transformer operations, when the transformed
text equals the original text byte-for-byte, the operation leaves the file
state (content and backup) untouched: no backup is created, no write
occurs. -/
theorem claim_C4 :
    (∀ st : FState, remove_package_versions_text st.content = st.content →
      remove_package_versions_step st = st) ∧
    (∀ st : FState, add_generate_assembly_info_text st.content = st.content →
      add_generate_assembly_info_step st = st) ∧
    (∀ (name : String) (st : FState),
      remove_package_reference_text name st.content = st.content →
      remove_package_reference_step name st = st) ∧
    (∀ (pname pvalue : String) (st : FState),
      add_property_text pname pvalue st.content = st.content →
      add_property_step pname pvalue st = st) := by
  refine ⟨?_, ?_, ?_, ?_⟩
  · intro st h
    simp [remove_package_versions_step, h]
  · intro st h
    unfold add_generate_assembly_info_step
    unfold add_generate_assembly_info_text at h
    split_ifs at h ⊢ with h1 h2 h3
    · rfl
    · rfl
    · exact absurd h h3
    · rfl
  · intro name st h
    simp [remove_package_reference_step, h]
  · intro pname pvalue st h
    unfold add_property_step
    unfold add_property_text at h
    split_ifs at h ⊢ with h1 h2
    · rfl
    · exact absurd h h2
    · rfl

/-- Witness for C4: each operation applied to a file it does not change. -/
theorem claim_C4_witness :
    remove_package_versions_step ⟨"<Project />".data, none⟩ =
      ⟨"<Project />".data, none⟩ ∧
    add_generate_assembly_info_step ⟨"<Project />".data, none⟩ =
      ⟨"<Project />".data, none⟩ ∧
    remove_package_reference_step "Moq" ⟨"<Project />".data, none⟩ =
      ⟨"<Project />".data, none⟩ ∧
    add_property_step "LangVersion" "latest" ⟨"<Project />".data, none⟩ =
      ⟨"<Project />".data, none⟩ :=
  ⟨claim_C4.1 _ (by decide), claim_C4.2.1 _ (by decide),
   claim_C4.2.2.1 "Moq" _ (by decide),
   claim_C4.2.2.2 "LangVersion" "latest" _ (by decide)⟩

/-- Every single operation leaves an existing backup's content untouched. -/
theorem applyOp_backup_preserved (op : UpdOp) (st : FState) {b : List Char}
    (h : st.backup = some b) : (applyOp op st).backup = some b := by
  cases op with
  | removeVersions =>
    simp only [applyOp]
    unfold remove_package_versions_step
    split_ifs
    · simp [backup_file, h]
    · exact h
  | addGenAssemblyInfo =>
    simp only [applyOp]
    unfold add_generate_assembly_info_step
    split_ifs
    · exact h
    · exact h
    · simp [backup_file, h]
    · exact h
  | removeRef name =>
    simp only [applyOp]
    unfold remove_package_reference_step
    split_ifs
    · simp [backup_file, h]
    · exact h
  | addProp n v =>
    simp only [applyOp]
    unfold add_property_step
    split_ifs
    · exact h
    · simp [backup_file, h]
    · exact h

/-- A whole run of operations leaves an existing backup's content
untouched. -/
theorem applyOps_backup_preserved :
    ∀ (ops : List UpdOp) (st : FState) (b : List Char), st.backup = some b →
      (applyOps ops st).backup = some b
  | [], _, _, h => h
  | op :: ops, st, b, h => by
    simp only [applyOps, List.foldl_cons]
    exact applyOps_backup_preserved ops _ b (applyOp_backup_preserved op st h)

/-- When no backup exists and an operation changes the file, the backup it
creates holds exactly the pre-modification content. -/
theorem applyOp_creates_backup (op : UpdOp) (st : FState)
    (hn : st.backup = none) (hch : (applyOp op st).content ≠ st.content) :
    (applyOp op st).backup = some st.content := by
  cases op with
  | removeVersions =>
    simp only [applyOp] at hch ⊢
    unfold remove_package_versions_step at hch ⊢
    split_ifs at hch ⊢
    · simp [backup_file, hn]
    · exact absurd rfl hch
  | addGenAssemblyInfo =>
    simp only [applyOp] at hch ⊢
    unfold add_generate_assembly_info_step at hch ⊢
    split_ifs at hch ⊢
    · exact absurd rfl hch
    · exact absurd rfl hch
    · simp [backup_file, hn]
    · exact absurd rfl hch
  | removeRef name =>
    simp only [applyOp] at hch ⊢
    unfold remove_package_reference_step at hch ⊢
    split_ifs at hch ⊢
    · simp [backup_file, hn]
    · exact absurd rfl hch
  | addProp n v =>
    simp only [applyOp] at hch ⊢
    unfold add_property_step at hch ⊢
    split_ifs at hch ⊢
    · exact absurd rfl hch
    · simp [backup_file, hn]
    · exact absurd rfl hch

/-- C5: across any sequence of transformer operations on a file, an already
existing `.backup` sibling is never overwritten (its content after the run
equals its content before), and when no backup exists, the operation that
first modifies the file creates the backup with exactly the file's
pre-modification content (the copy is taken before the write). -/
theorem claim_C5 :
    (∀ (ops : List UpdOp) (st : FState) (b : List Char), st.backup = some b →
      (applyOps ops st).backup = some b) ∧
    (∀ (op : UpdOp) (st : FState), st.backup = none →
      (applyOp op st).content ≠ st.content →
      (applyOp op st).backup = some st.content) :=
  ⟨applyOps_backup_preserved, applyOp_creates_backup⟩

/-- Witness for C5: a pre-existing backup survives a modifying run, and a
first modification creates the backup with the original content. -/
theorem claim_C5_witness :
    (applyOps [UpdOp.removeVersions] ⟨exDoubleVersion, some "orig".data⟩).backup =
      some "orig".data ∧
    (applyOp UpdOp.removeVersions ⟨exDoubleVersion, none⟩).backup =
      some exDoubleVersion :=
  ⟨claim_C5.1 [UpdOp.removeVersions] ⟨exDoubleVersion, some "orig".data⟩
      "orig".data rfl,
    claim_C5.2 UpdOp.removeVersions ⟨exDoubleVersion, none⟩ rfl (by decide)⟩

/-- `splitFirst` really splits: the input is prefix ++ pattern ++ suffix. -/
theorem splitFirst_eq {pat : List Char} :
    ∀ {s pre post : List Char}, splitFirst pat s = some (pre, post) →
      s = pre ++ pat ++ post
  | [], pre, post, h => by
    unfold splitFirst at h
    split at h
    · rename_i hpre
      injection h with h'
      have h1 : ([] : List Char) = pre := congrArg Prod.fst h'
      have h2 : ([] : List Char) = post := congrArg Prod.snd h'
      subst h1
      subst h2
      have : pat = [] := List.prefix_nil.mp (List.isPrefixOf_iff_prefix.mp hpre)
      simp [this]
    · exact absurd h (by simp)
  | c :: cs, pre, post, h => by
    unfold splitFirst at h
    split at h
    · rename_i hpre
      injection h with h'
      have h1 : ([] : List Char) = pre := congrArg Prod.fst h'
      have h2 : (c :: cs).drop pat.length = post := congrArg Prod.snd h'
      subst h1
      subst h2
      obtain ⟨u, hu⟩ := List.isPrefixOf_iff_prefix.mp hpre
      rw [← hu, List.drop_left]
      simp
    · rcases hsub : splitFirst pat cs with _ | ⟨p, q⟩
      · rw [hsub] at h
        exact Option.noConfusion h
      · rw [hsub] at h
        have hsome : some ((c :: p, q)) = some ((pre, post)) := h
        injection hsome with h'
        have h1 : c :: p = pre := congrArg Prod.fst h'
        have h2 : q = post := congrArg Prod.snd h'
        subst h1
        subst h2
        have := splitFirst_eq hsub
        simp [this]

/-- `splitFirst` finds the earliest occurrence: any other decomposition has
a prefix at least as long. -/
theorem splitFirst_min {pat : List Char} :
    ∀ {s pre post : List Char}, splitFirst pat s = some (pre, post) →
      ∀ pre2 post2, s = pre2 ++ pat ++ post2 → pre.length ≤ pre2.length
  | [], pre, post, h => by
    unfold splitFirst at h
    split at h
    · injection h with h'
      have h1 : ([] : List Char) = pre := congrArg Prod.fst h'
      subst h1
      intro pre2 post2 _
      simp
    · exact absurd h (by simp)
  | c :: cs, pre, post, h => by
    unfold splitFirst at h
    split at h
    · injection h with h'
      have h1 : ([] : List Char) = pre := congrArg Prod.fst h'
      subst h1
      intro pre2 post2 _
      simp
    · rename_i hnpre
      rcases hsub : splitFirst pat cs with _ | ⟨p, q⟩
      · rw [hsub] at h
        exact Option.noConfusion h
      · rw [hsub] at h
        have hsome : some ((c :: p, q)) = some ((pre, post)) := h
        injection hsome with h'
        have h1 : c :: p = pre := congrArg Prod.fst h'
        subst h1
        intro pre2 post2 hs
        cases pre2 with
        | nil =>
          exfalso
          apply hnpre
          simp only [List.nil_append] at hs
          exact List.isPrefixOf_iff_prefix.mpr ⟨post2, by rw [← hs]⟩
        | cons d pre2' =>
          simp only [List.cons_append] at hs
          injection hs with hc hcs
          simp only [List.length_cons, Nat.add_le_add_iff_right]
          exact splitFirst_min hsub pre2' post2 hcs

/-- `subFirstPG` on a split success inserts right after the first
occurrence. -/
theorem subFirstPG_of_split {ins s pre post : List Char}
    (h : splitFirst litPropertyGroup s = some (pre, post)) :
    subFirstPG ins s = pre ++ litPropertyGroup ++ ins ++ post := by
  unfold subFirstPG
  rw [h]

/-- Inserting a non-empty text strictly changes the file. -/
theorem subFirstPG_ne {ins s pre post : List Char} (hins : ins ≠ [])
    (h : splitFirst litPropertyGroup s = some (pre, post)) :
    subFirstPG ins s ≠ s := by
  intro heq
  have hs := splitFirst_eq h
  rw [subFirstPG_of_split h, hs] at heq
  have hlen := congrArg List.length heq
  simp only [List.length_append] at hlen
  have : ins.length = 0 := by omega
  exact hins (List.length_eq_zero.mp this)

/-- C9: the inject-property operation (and the parameterized add-property
operation) changes the text exactly when the required conditions hold, and
then only by inserting the property immediately after the first (earliest)
`<PropertyGroup>` occurrence: skip when the marker string is absent (inject
only), skip when the target-property substring is already present, no-op
when no property group occurrence exists; otherwise the output is
`pre ++ "<PropertyGroup>" ++ inserted-property ++ post` where `pre` is the
(shortest) text before the first property group — so only the first
property group in document order is touched — and the output differs from
the input. -/
theorem claim_C9 :
    (∀ s, containsSub litSharedAI s = false →
      add_generate_assembly_info_text s = s) ∧
    (∀ s, containsSub litGAI s = true → add_generate_assembly_info_text s = s) ∧
    (∀ s, splitFirst litPropertyGroup s = none →
      add_generate_assembly_info_text s = s) ∧
    (∀ s pre post, containsSub litSharedAI s = true →
      containsSub litGAI s = false →
      splitFirst litPropertyGroup s = some (pre, post) →
      s = pre ++ litPropertyGroup ++ post ∧
      (∀ pre2 post2, s = pre2 ++ litPropertyGroup ++ post2 →
        pre.length ≤ pre2.length) ∧
      add_generate_assembly_info_text s =
        pre ++ litPropertyGroup ++ insGAI ++ post ∧
      add_generate_assembly_info_text s ≠ s) ∧
    (∀ pname pvalue s, containsSub (propOpenTag pname) s = true →
      add_property_text pname pvalue s = s) ∧
    (∀ pname pvalue s, splitFirst litPropertyGroup s = none →
      add_property_text pname pvalue s = s) ∧
    (∀ pname pvalue s pre post, containsSub (propOpenTag pname) s = false →
      splitFirst litPropertyGroup s = some (pre, post) →
      add_property_text pname pvalue s =
        pre ++ litPropertyGroup ++ propInsertion pname pvalue ++ post ∧
      add_property_text pname pvalue s ≠ s) := by
  refine ⟨?_, ?_, ?_, ?_, ?_, ?_, ?_⟩
  · intro s h
    simp [add_generate_assembly_info_text, h]
  · intro s h
    simp [add_generate_assembly_info_text, h]
  · intro s h
    unfold add_generate_assembly_info_text
    split_ifs
    · rfl
    · rfl
    · simp [subFirstPG, h]
  · intro s pre post h1 h2 h3
    have htext : add_generate_assembly_info_text s = subFirstPG insGAI s := by
      simp [add_generate_assembly_info_text, h1, h2]
    refine ⟨splitFirst_eq h3, fun p2 q2 hp => splitFirst_min h3 p2 q2 hp, ?_, ?_⟩
    · rw [htext]
      exact subFirstPG_of_split h3
    · rw [htext]
      exact subFirstPG_ne (by decide) h3
  · intro pname pvalue s h
    simp [add_property_text, h]
  · intro pname pvalue s h
    unfold add_property_text
    split_ifs
    · rfl
    · simp [subFirstPG, h]
  · intro pname pvalue s pre post h1 h2
    have htext : add_property_text pname pvalue s =
        subFirstPG (propInsertion pname pvalue) s := by
      simp [add_property_text, h1]
    have hne : propInsertion pname pvalue ≠ [] := by
      unfold propInsertion
      intro hx
      simp only [List.append_eq_nil] at hx
      exact absurd hx.1.1.1 (by decide)
    constructor
    · rw [htext]
      exact subFirstPG_of_split h2
    · rw [htext]
      exact subFirstPG_ne hne h2

/-- Witness for C9 at concrete files: the inject operation on a file with
the marker and one property group, and the add-property operation on a bare
property group. -/
theorem claim_C9_witness :
    add_generate_assembly_info_text "SharedAssemblyInfo<PropertyGroup>ok".data =
      "SharedAssemblyInfo".data ++ litPropertyGroup ++ insGAI ++ "ok".data ∧
    add_generate_assembly_info_text "SharedAssemblyInfo<PropertyGroup>ok".data ≠
      "SharedAssemblyInfo<PropertyGroup>ok".data ∧
    add_property_text "LangVersion" "latest" "<PropertyGroup>x".data =
      ([] : List Char) ++ litPropertyGroup ++
        propInsertion "LangVersion" "latest" ++ "x".data :=
  ⟨(claim_C9.2.2.2.1 "SharedAssemblyInfo<PropertyGroup>ok".data
      "SharedAssemblyInfo".data "ok".data (by decide) (by decide)
      (by decide)).2.2.1,
    (claim_C9.2.2.2.1 "SharedAssemblyInfo<PropertyGroup>ok".data
      "SharedAssemblyInfo".data "ok".data (by decide) (by decide)
      (by decide)).2.2.2,
    (claim_C9.2.2.2.2.2.2 "LangVersion" "latest" "<PropertyGroup>x".data
      [] "x".data (by decide) (by decide)).1⟩

/-- C7: the overall validation score equals the spec's weighted average
(weights: props 25, project files 30, consistency 25, build 20 over the
status scores PASS=100, WARN=75, FAIL=0, SKIP=0, UNKNOWN=0), the band is
the threshold banding of that average (EXCELLENT at ≥90, GOOD at ≥75,
NEEDS_WORK at ≥50, POOR below), and in particular four PASSes give
(100, EXCELLENT) and four FAILs give (0, POOR). -/
theorem claim_C7 :
    (∀ v : ValidationStatuses,
      (calculate_overall_score v).1 = specOverallScore v ∧
      (calculate_overall_score v).2 = overallBand (specOverallScore v)) ∧
    calculate_overall_score ⟨.pass, .pass, .pass, .pass⟩ = (100, "EXCELLENT") ∧
    calculate_overall_score ⟨.fail, .fail, .fail, .fail⟩ = (0, "POOR") := by
  have hmain : ∀ v : ValidationStatuses,
      (calculate_overall_score v).1 = specOverallScore v := by
    intro v
    simp only [calculate_overall_score, weightedStatuses, specOverallScore,
      List.foldl_cons, List.foldl_nil]
    norm_num
    ring
  refine ⟨fun v => ⟨hmain v, ?_⟩, ?_, ?_⟩
  · have hband : (calculate_overall_score v).2 =
        overallBand ((calculate_overall_score v).1) := rfl
    rw [hband, hmain v]
  · have h1 := hmain ⟨.pass, .pass, .pass, .pass⟩
    have h2 : (calculate_overall_score ⟨.pass, .pass, .pass, .pass⟩).2 =
        overallBand ((calculate_overall_score ⟨.pass, .pass, .pass, .pass⟩).1) := rfl
    have hval : specOverallScore ⟨.pass, .pass, .pass, .pass⟩ = 100 := by
      norm_num [specOverallScore, status_scores]
    rw [Prod.ext_iff]
    refine ⟨by rw [h1, hval], by rw [h2, h1, hval]; norm_num [overallBand]⟩
  · have h1 := hmain ⟨.fail, .fail, .fail, .fail⟩
    have h2 : (calculate_overall_score ⟨.fail, .fail, .fail, .fail⟩).2 =
        overallBand ((calculate_overall_score ⟨.fail, .fail, .fail, .fail⟩).1) := rfl
    have hval : specOverallScore ⟨.fail, .fail, .fail, .fail⟩ = 0 := by
      norm_num [specOverallScore, status_scores]
    rw [Prod.ext_iff]
    refine ⟨by rw [h1, hval], by rw [h2, h1, hval]; norm_num [overallBand]⟩

/-- C8 (the code contradicts the claim; the claim follows the code's own
comment "Extract package name (usually first capture group)"): on a log with
exactly one NU1010 match — NU1010 is a priority-1 (blocking) code and its
pattern captures the quoted package name as its only group — the analyzer
produces exactly one error record for NU1010, but the affected-package set
stays empty: `re.findall` returns a plain string for a single-group
pattern, and the `isinstance(match, tuple)` guard silently drops it. For
the multi-group blocking code NU1103 the same log shape does record the
captured package. -/
theorem claim_C8 :
    (analyze_log exLogNU1010).errors =
      [("NU1010", [PyMatch.strg "Foo.Bar".data])] ∧
    (analyze_log exLogNU1010).summary = [("NU1010", 1)] ∧
    (analyze_log exLogNU1010).total_errors = 1 ∧
    (analyze_log exLogNU1010).packages_affected = [] ∧
    List.lookup "NU1010" error_priorities = some 1 ∧
    (analyze_log exLogNU1103).summary = [("NU1103", 1)] ∧
    (analyze_log exLogNU1103).packages_affected = ["Baz.Qux".data] := by
  decide

end CPM
